import Mathlib

/-!
Verification of the InvestMon valuation and aggregation logic.

The definitions below are a shallow embedding of `investmon.py`:
floats are modelled as rationals, SQL tables as lists of records, and
nullable columns as `Option`.  Python truthiness on a nullable float
(`x if x else y`) is modelled by matching on the `Option` and testing
the value against `0`.
-/

namespace InvestMon

/-- A Portfolio row (a "Holding"): symbol, share count, cost basis per
share, cached latest price (nullable), owning account and optional
investment link.  Mirrors the `Portfolio` model of `investmon.py`. -/
structure Holding where
  symbol : String
  shares : ℚ
  average_price : ℚ
  latest_price : Option ℚ
  account : String
  investment_id : Option Nat
deriving DecidableEq, Repr

/-- `Portfolio.total_cost`: `self.shares * self.average_price`. -/
def Holding.total_cost (h : Holding) : ℚ :=
  h.shares * h.average_price

/-- `Portfolio.market_value`:
`self.shares * (self.latest_price if self.latest_price else self.average_price)`.
Python truthiness: both `None` and `0.0` select the `average_price` branch. -/
def Holding.market_value (h : Holding) : ℚ :=
  h.shares * (match h.latest_price with
    | some p => if p = 0 then h.average_price else p
    | none => h.average_price)

/-- `Portfolio.profit`: `self.market_value - self.total_cost`. -/
def Holding.profit (h : Holding) : ℚ :=
  h.market_value - h.total_cost

/-- The valuation rule exactly as claim C1 words it: the fallback to
`average_price` happens only when `latest_price` is absent. -/
def statedMarketValue (h : Holding) : ℚ :=
  h.shares * (h.latest_price.getD h.average_price)

/-- Claim C1 as stated, as a predicate on one holding. -/
def C1Stated (h : Holding) : Prop :=
  h.total_cost = h.shares * h.average_price ∧
  h.market_value = statedMarketValue h ∧
  h.profit = h.market_value - h.total_cost

/-- A row of the `stocks` table: daily OHLCV plus the custom net-flow
column, keyed by `(symbol, date)`.  Dates are abstracted to naturals
(the `YYYY-MM-DD` strings compare lexicographically, i.e. chronologically). -/
structure PriceRec where
  symbol : String
  date : Nat
  open_price : ℚ
  high_price : ℚ
  low_price : ℚ
  close : ℚ
  volume : ℚ
  nfb_nfs : Option ℚ
deriving DecidableEq, Repr

/-- Keep whichever of an accumulated record and a new record has the
later date (the new one only on a strictly later date). -/
def pickLater (a : Option PriceRec) (r : PriceRec) : Option PriceRec :=
  match a with
  | none => some r
  | some b => if b.date < r.date then some r else some b

/-- The record with the greatest date among those satisfying `p`
(`SELECT ... WHERE p ORDER BY date DESC LIMIT 1`). -/
def latestRec (rows : List PriceRec) (p : PriceRec → Bool) : Option PriceRec :=
  (rows.filter p).foldl pickLater none

/-- `SELECT MAX(date) FROM stocks`: the globally most recent date. -/
def maxDate (rows : List PriceRec) : Option Nat :=
  (latestRec rows (fun _ => true)).map PriceRec.date

/-- Price Store `latestClose`: close of the most recent record for a
symbol (`SELECT close ... ORDER BY date DESC LIMIT 1`), null if the
symbol has no records. -/
def latest_close (rows : List PriceRec) (s : String) : Option ℚ :=
  (latestRec rows (fun r => decide (r.symbol = s))).map PriceRec.close

/-- Close of the most recent record for `s` strictly before date `d`
(the `previous_close` query of the `/stocks` route). -/
def previous_close (rows : List PriceRec) (s : String) (d : Nat) : Option ℚ :=
  (latestRec rows (fun r => decide (r.symbol = s) && decide (r.date < d))).map PriceRec.close

/-- Round to the nearest integer, ties to even — the rounding used by
`pandas.Series.round`. -/
def roundHalfEven (q : ℚ) : ℤ :=
  if q - ⌊q⌋ < 1/2 then ⌊q⌋
  else if 1/2 < q - ⌊q⌋ then ⌊q⌋ + 1
  else if ⌊q⌋ % 2 = 0 then ⌊q⌋ else ⌊q⌋ + 1

/-- Round to 2 decimal places, ties to even (`.round(2)`). -/
def round2 (q : ℚ) : ℚ :=
  (roundHalfEven (q * 100) : ℚ) / 100

/-- The symbols of the latest snapshot: one per row dated at the global
maximum date (what the `/stocks` route iterates over to build
`previous_closes`). -/
def snapshotSymbols (rows : List PriceRec) (d : Nat) : List String :=
  (rows.filter (fun r => decide (r.date = d))).map PriceRec.symbol

/-- Whether at least one symbol of the latest snapshot has a record
strictly before the latest date.  Exactly then the `previous_close`
column built from the list of dicts holds a float, pandas infers a
float64 dtype for it, and every `None` entry is coerced to `NaN`;
otherwise the column stays object-dtyped and keeps the real `None`s. -/
def anyPriorInSnapshot (rows : List PriceRec) (d : Nat) : Bool :=
  (snapshotSymbols rows d).any (fun s2 =>
    rows.any (fun r => decide (r.symbol = s2) && decide (r.date < d)))

/-- The `change_pct` column of the `/stocks` route for one symbol of the
latest snapshot, with `none` standing for `NaN`.  When a prior record
exists, the lambda's truthiness guard (`if prev and prev != 0`) yields 0
for a prior close of 0 and the rounded percent change otherwise.  When
no prior record exists the result depends on the column dtype: if any
snapshot symbol has a prior, this symbol's missing entry was coerced to
`NaN`, which is truthy and non-equal to 0, so the arithmetic and
`.round(2)` propagate `NaN`; only when every snapshot symbol lacks a
prior does the entry stay `None` (falsy) and the guard's else-branch
produce 0. -/
def change_pct (rows : List PriceRec) (s : String) : Option ℚ :=
  match maxDate rows with
  | none => some 0
  | some d =>
    match latestRec rows (fun r => decide (r.symbol = s) && decide (r.date = d)) with
    | none => some 0
    | some latest =>
      match previous_close rows s d with
      | some pc =>
        some (round2 (if pc = 0 then 0 else (latest.close - pc) / pc * 100))
      | none =>
        if anyPriorInSnapshot rows d then none else some (round2 0)

/-- The `upload` route's per-file replacement policy: delete every
existing row whose date occurs in the uploaded records (across all
symbols), then insert all uploaded records. -/
def upsertDay (store records : List PriceRec) : List PriceRec :=
  store.filter (fun r => decide (r.date ∉ records.map PriceRec.date)) ++ records

/-- No two rows share a `(symbol, date)` key — the `UNIQUE(symbol, date)`
constraint of the `stocks` table. -/
def keysUnique (rows : List PriceRec) : Prop :=
  rows.Pairwise (fun a b => ¬ (a.symbol = b.symbol ∧ a.date = b.date))

/-- The `Investment` model: a named account with a running transaction
total and an independently entered current valuation. -/
structure Investment where
  id : Nat
  name : String
  platform : String
  account_name : String
  type : String
  total_amount : ℚ
  actual_amount : ℚ
  profit_loss : ℚ
deriving DecidableEq, Repr

/-- The `Transaction` model: a dated signed cash movement against an
Investment. -/
structure Transaction where
  id : Nat
  date : Nat
  amount : ℚ
  investment_id : Nat
  notes : String
deriving DecidableEq, Repr

/-- The ledger database: both tables plus the autoincrement counters. -/
structure Ledger where
  investments : List Investment
  transactions : List Transaction
  nextInvestmentId : Nat
  nextTransactionId : Nat
deriving DecidableEq, Repr

/-- The `add_investment` route (POST): insert the Investment with
`total_amount = actual_amount = initial_amount`, then, only when
`initial_amount > 0`, insert one Transaction of that amount with notes
"Initial investment" against the new Investment. -/
def add_investment (L : Ledger) (name platform account_name ty : String)
    (initial_amount : ℚ) (today : Nat) : Ledger :=
  let inv : Investment :=
    ⟨L.nextInvestmentId, name, platform, account_name, ty,
      initial_amount, initial_amount, 0⟩
  let L1 : Ledger :=
    { L with investments := L.investments ++ [inv],
             nextInvestmentId := L.nextInvestmentId + 1 }
  if 0 < initial_amount then
    { L1 with
      transactions := L1.transactions ++
        [⟨L.nextTransactionId, today, initial_amount, inv.id, "Initial investment"⟩],
      nextTransactionId := L.nextTransactionId + 1 }
  else L1

/-- The `delete_investment` route: delete all Transactions with the
given `investment_id`, then the Investment itself. -/
def delete_investment (L : Ledger) (iid : Nat) : Ledger :=
  { L with
    transactions := L.transactions.filter (fun t => decide (t.investment_id ≠ iid)),
    investments := L.investments.filter (fun inv => decide (inv.id ≠ iid)) }

/-- `Transaction.query.filter_by(investment_id=iid)`: the transactions
referencing a given investment id. -/
def txns_of (L : Ledger) (iid : Nat) : List Transaction :=
  L.transactions.filter (fun t => decide (t.investment_id = iid))

/-- Claim C5 as stated: a nonzero initial amount yields exactly one
accompanying Transaction; a zero one yields none. -/
def C5Stated (L : Ledger) (n p a ty : String) (amt : ℚ) (d : Nat) : Prop :=
  (amt ≠ 0 →
    (txns_of (add_investment L n p a ty amt d) L.nextInvestmentId).length = 1 ∧
    ∀ t ∈ txns_of (add_investment L n p a ty amt d) L.nextInvestmentId,
      t.amount = amt ∧ t.notes = "Initial investment") ∧
  (amt = 0 → txns_of (add_investment L n p a ty amt d) L.nextInvestmentId = []) ∧
  (∀ inv ∈ (add_investment L n p a ty amt d).investments,
    inv.id = L.nextInvestmentId → inv.total_amount = amt)

/-- The `update_prices` pass shared by the portfolio/investment views:
for every Portfolio row, look up the symbol's latest close and persist it
onto `latest_price` — but only when the looked-up value is truthy
(`if latest_price:` in Python skips both `None` and `0.0`). -/
def update_prices (rows : List PriceRec) (hs : List Holding) : List Holding :=
  hs.map (fun p => match latest_close rows p.symbol with
    | none => p
    | some lp => if lp = 0 then p else { p with latest_price := some lp })

/-- Claim C7 as stated: every non-null `latestClose` result is persisted. -/
def C7Stated (rows : List PriceRec) (hs : List Holding) : Prop :=
  update_prices rows hs = hs.map (fun p => match latest_close rows p.symbol with
    | none => p
    | some lp => { p with latest_price := some lp })

/-- The `add_portfolio` route (POST): create a Holding from the form
fields with no `latest_price` set.  The route upper-cases the submitted
symbol; `symbol` here stands for that already upper-cased form field. -/
def add_portfolio (symbol : String) (shares average_price : ℚ)
    (account : String) (investment_id : Option Nat) : Holding :=
  { symbol := symbol, shares := shares, average_price := average_price,
    latest_price := none, account := account, investment_id := investment_id }

/-- The `update_market_value` route: get-or-create the NON-STOCK row of
the given account.  The first row matching `(account, 'NON-STOCK')` gets
`average_price` and `latest_price` overwritten with the entered value;
if none exists a fresh row with `shares = 1` is inserted. -/
def update_market_value : List Holding → String → ℚ → List Holding
  | [], account, mv =>
    [{ symbol := "NON-STOCK", shares := 1, average_price := mv,
       latest_price := some mv, account := account, investment_id := none }]
  | h :: t, account, mv =>
    if h.account = account ∧ h.symbol = "NON-STOCK" then
      { h with average_price := mv, latest_price := some mv } :: t
    else
      h :: update_market_value t account mv

/-- Claim C8 as stated, restricted to its share-count clauses: positive
shares for real holdings, exactly one share for NON-STOCK rows. -/
def C8Stated (h : Holding) : Prop :=
  (h.symbol ≠ "NON-STOCK" → 0 < h.shares) ∧
  (h.symbol = "NON-STOCK" → h.shares = 1)

/-- Python truthiness of a nullable float: `None` and `0.0` are falsy. -/
def truthy : Option ℚ → Bool
  | none => false
  | some p => decide (p ≠ 0)

/-- One aggregated row of the `/my-stocks` view. -/
structure StockAgg where
  total_shares : ℚ
  total_cost : ℚ
  market_value : ℚ
  profit : ℚ
  average_price : ℚ
  latest_price : ℚ
deriving DecidableEq, Repr

/-- The zero-initialised dict entry of the `/my-stocks` aggregation loop. -/
def zeroAgg : StockAgg := ⟨0, 0, 0, 0, 0, 0⟩

/-- One iteration of the first `/my-stocks` loop: accumulate a holding's
shares, cost, market value and profit into the symbol's entry. -/
def addHolding (r : StockAgg) (h : Holding) : StockAgg :=
  { r with
    total_shares := r.total_shares + h.shares,
    total_cost := r.total_cost + h.total_cost,
    market_value := r.market_value + h.market_value,
    profit := r.profit + h.profit }

/-- Update-or-append on an insertion-ordered association list — the
Python dict update `stocks[symbol]` (creating the zero entry first when
the key is absent). -/
def dictUpd : List (String × StockAgg) → Holding → List (String × StockAgg)
  | [], h => [(h.symbol, addHolding zeroAgg h)]
  | e :: t, h =>
    if e.1 = h.symbol then (e.1, addHolding e.2 h) :: t
    else e :: dictUpd t h

/-- First entry with the given key, the Python dict lookup. -/
def assocFind : List (String × StockAgg) → String → Option (String × StockAgg)
  | [], _ => none
  | e :: t, s => if e.1 = s then some e else assocFind t s

/-- The looked-up aggregate for a key, zero when absent. -/
def lookupAgg (acc : List (String × StockAgg)) (s : String) : StockAgg :=
  match assocFind acc s with
  | some e => e.2
  | none => zeroAgg

/-- The second `/my-stocks` loop for one entry: derive the blended
average price (`total_cost / total_shares` when `total_shares > 0`, else
0) and pick `latest_price` from the first portfolio row of that symbol
with a truthy cached price, else 0. -/
def finalizeAgg (ps : List Holding) (e : String × StockAgg) : String × StockAgg :=
  (e.1, { e.2 with
    average_price := if 0 < e.2.total_shares then e.2.total_cost / e.2.total_shares else 0,
    latest_price :=
      match ps.find? (fun h => decide (h.symbol = e.1) && truthy h.latest_price) with
      | some h => h.latest_price.getD 0
      | none => 0 })

/-- The Portfolio rows the `/my-stocks` route queries: everything except
NON-STOCK. -/
def nonStockFilter (hs : List Holding) : List Holding :=
  hs.filter (fun h => decide (h.symbol ≠ "NON-STOCK"))

/-- The full `/my-stocks` aggregation: group the non-NON-STOCK rows by
symbol summing shares, cost, market value and profit, then finalize each
entry with average and latest price. -/
def my_stocks (hs : List Holding) : List (String × StockAgg) :=
  ((nonStockFilter hs).foldl dictUpd []).map (finalizeAgg (nonStockFilter hs))

/-- The aggregated row the `/my-stocks` view shows for a symbol. -/
def my_stocks_row (hs : List Holding) (s : String) : Option StockAgg :=
  (assocFind (my_stocks hs) s).map Prod.snd

/-- Sum of shares over the holdings of one symbol. -/
def gShares (hs : List Holding) (s : String) : ℚ :=
  ((hs.filter (fun h => decide (h.symbol = s))).map Holding.shares).sum

/-- Sum of cost bases over the holdings of one symbol. -/
def gCost (hs : List Holding) (s : String) : ℚ :=
  ((hs.filter (fun h => decide (h.symbol = s))).map Holding.total_cost).sum

/-- Sum of market values over the holdings of one symbol. -/
def gMV (hs : List Holding) (s : String) : ℚ :=
  ((hs.filter (fun h => decide (h.symbol = s))).map Holding.market_value).sum

/-- Sum of profits over the holdings of one symbol. -/
def gProfit (hs : List Holding) (s : String) : ℚ :=
  ((hs.filter (fun h => decide (h.symbol = s))).map Holding.profit).sum

/-- Claim C2 as stated: sums per symbol, blended average price falling
back to 0 exactly when the summed shares are 0, and the group's
`latest_price` taken from the first holding whose `latest_price` is set
(non-null). -/
def C2Stated (hs : List Holding) (s : String) : Prop :=
  ∀ r, my_stocks_row hs s = some r →
    r.total_shares = gShares hs s ∧
    r.total_cost = gCost hs s ∧
    r.market_value = gMV hs s ∧
    r.average_price = (if gShares hs s = 0 then 0 else gCost hs s / gShares hs s) ∧
    r.latest_price =
      (match hs.find? (fun h => decide (h.symbol = s) && h.latest_price.isSome) with
      | some h => h.latest_price.getD 0
      | none => 0)

/-! ## Theorems -/

/-- Folding `pickLater` yields an element of the list (or the start),
whose date bounds every date seen. -/
theorem foldl_pickLater_spec (l : List PriceRec) : ∀ (a : Option PriceRec) (b : PriceRec),
    l.foldl pickLater a = some b →
    (b ∈ l ∨ a = some b) ∧ (∀ r ∈ l, r.date ≤ b.date) ∧
      (∀ c, a = some c → c.date ≤ b.date) := by
  induction l with
  | nil =>
    intro a b h
    simp only [List.foldl_nil] at h
    subst h
    refine ⟨Or.inr rfl, by simp, ?_⟩
    intro c hc
    injection hc with h2
    rw [← h2]
  | cons r t ih =>
    intro a b h
    simp only [List.foldl_cons] at h
    obtain ⟨hmem, hub, hacc⟩ := ih (pickLater a r) b h
    refine ⟨?_, ?_, ?_⟩
    · rcases hmem with hbt | hpb
      · exact Or.inl (List.mem_cons_of_mem r hbt)
      · cases a with
        | none =>
          have hrb : r = b := by simpa [pickLater] using hpb
          exact Or.inl (hrb ▸ List.mem_cons_self r t)
        | some c =>
          by_cases hlt : c.date < r.date
          · have hrb : r = b := by simpa [pickLater, hlt] using hpb
            exact Or.inl (hrb ▸ List.mem_cons_self r t)
          · have hcb : c = b := by simpa [pickLater, hlt] using hpb
            exact Or.inr (by rw [hcb])
    · intro x hx
      rcases List.mem_cons.mp hx with hxr | hxt
      · subst hxr
        cases a with
        | none => exact hacc x (by simp [pickLater])
        | some c =>
          by_cases hlt : c.date < x.date
          · exact hacc x (by simp [pickLater, hlt])
          · exact le_trans (Nat.not_lt.mp hlt) (hacc c (by simp [pickLater, hlt]))
      · exact hub x hxt
    · intro c hc
      subst hc
      by_cases hlt : c.date < r.date
      · exact le_trans (le_of_lt hlt) (hacc r (by simp [pickLater, hlt]))
      · exact hacc c (by simp [pickLater, hlt])

/-- Folding `pickLater` from a present accumulator stays present. -/
theorem foldl_pickLater_some (l : List PriceRec) : ∀ (a : PriceRec),
    ∃ b, l.foldl pickLater (some a) = some b := by
  induction l with
  | nil =>
    intro a
    exact ⟨a, rfl⟩
  | cons r t ih =>
    intro a
    simp only [List.foldl_cons]
    by_cases hlt : a.date < r.date
    · simpa [pickLater, hlt] using ih r
    · simpa [pickLater, hlt] using ih a

/-- `latestRec` is empty exactly when no row satisfies the predicate. -/
theorem latestRec_eq_none_iff (rows : List PriceRec) (p : PriceRec → Bool) :
    latestRec rows p = none ↔ ∀ r ∈ rows, ¬ p r = true := by
  rw [latestRec]
  constructor
  · intro h r hr hp
    have hmem : r ∈ rows.filter p := List.mem_filter.mpr ⟨hr, hp⟩
    cases hf : rows.filter p with
    | nil =>
      rw [hf] at hmem
      simp at hmem
    | cons x xs =>
      rw [hf] at h
      simp only [List.foldl_cons] at h
      obtain ⟨b, hb⟩ := foldl_pickLater_some xs x
      rw [show pickLater none x = some x from rfl, hb] at h
      cases h
  · intro h
    rw [List.filter_eq_nil_iff.mpr h]
    rfl

/-- A present `latestRec` result is a matching row and has the maximal
date among matching rows. -/
theorem latestRec_spec (rows : List PriceRec) (p : PriceRec → Bool) (b : PriceRec)
    (h : latestRec rows p = some b) :
    b ∈ rows ∧ p b = true ∧ ∀ r ∈ rows, p r = true → r.date ≤ b.date := by
  obtain ⟨hmem, hub, -⟩ := foldl_pickLater_spec (rows.filter p) none b h
  rcases hmem with hmem | hnone
  · obtain ⟨hb1, hb2⟩ := List.mem_filter.mp hmem
    exact ⟨hb1, hb2, fun r hr hp => hub r (List.mem_filter.mpr ⟨hr, hp⟩)⟩
  · cases hnone

/-- `latestRec` is present as soon as one row matches. -/
theorem latestRec_isSome (rows : List PriceRec) (p : PriceRec → Bool) (r : PriceRec)
    (hr : r ∈ rows) (hp : p r = true) : ∃ b, latestRec rows p = some b := by
  cases h : latestRec rows p with
  | some b => exact ⟨b, rfl⟩
  | none => exact absurd hp ((latestRec_eq_none_iff rows p).mp h r hr)

/-- Two rows of a key-unique table with the same symbol and date are the
same row. -/
theorem keysUnique_mem_eq : ∀ {rows : List PriceRec}, keysUnique rows →
    ∀ {a b : PriceRec}, a ∈ rows → b ∈ rows →
    a.symbol = b.symbol → a.date = b.date → a = b := by
  intro rows
  induction rows with
  | nil =>
    intro _ a b ha
    simp at ha
  | cons x t ih =>
    intro hk a b ha hb hsym hdate
    rw [keysUnique, List.pairwise_cons] at hk
    rcases List.mem_cons.mp ha with ha1 | ha1
    · rcases List.mem_cons.mp hb with hb1 | hb1
      · rw [ha1, hb1]
      · subst ha1
        exact absurd ⟨hsym, hdate⟩ (hk.1 b hb1)
    · rcases List.mem_cons.mp hb with hb1 | hb1
      · subst hb1
        exact absurd ⟨hsym.symm, hdate.symm⟩ (hk.1 a ha1)
      · exact ih hk.2 ha1 hb1 hsym hdate

/-- A symbol with no rows in the price store has no latest close. -/
theorem latest_close_eq_none (rows : List PriceRec) (s : String)
    (h : ∀ r ∈ rows, r.symbol ≠ s) : latest_close rows s = none := by
  rw [latest_close, (latestRec_eq_none_iff rows _).mpr ?_]
  · rfl
  · intro r hr
    simpa using h r hr

/-- `maxDate` is the date of any row whose date dominates all rows. -/
theorem maxDate_eq_of (rows : List PriceRec) (latest : PriceRec)
    (hmem : latest ∈ rows) (hmax : ∀ r ∈ rows, r.date ≤ latest.date) :
    maxDate rows = some latest.date := by
  cases h : latestRec rows (fun _ => true) with
  | none => exact absurd rfl ((latestRec_eq_none_iff rows _).mp h latest hmem)
  | some b =>
    obtain ⟨hbmem, -, hub⟩ := latestRec_spec rows _ b h
    rw [maxDate, h]
    show some b.date = some latest.date
    exact congrArg some (le_antisymm (hmax b hbmem) (hub latest hmem rfl))

/-- `round2` fixes 0. -/
theorem round2_zero : round2 0 = 0 := by
  norm_num [round2, roundHalfEven]

/-- C3 (code bug): with symbol A recorded on days 1 and 2 and symbol B
only on day 2, the `/stocks` view computes `NaN` (modelled `none`) as
B's change percent instead of the 0 the lambda's own else-branch
intends: A's prior close makes pandas infer a float64 `previous_close`
column, B's missing prior becomes `NaN`, and `NaN` passes the
`if prev and prev != 0` guard and propagates through the arithmetic and
`.round(2)`.  A's own change percent is the expected 10, and with a
single-day store (no snapshot symbol has a prior) the 0 branch is
reached. -/
theorem C3_nan_on_missing_prior :
    change_pct [⟨"A", 1, 0, 0, 0, 100, 0, none⟩, ⟨"A", 2, 0, 0, 0, 110, 0, none⟩,
      ⟨"B", 2, 0, 0, 0, 50, 0, none⟩] "B" = none ∧
    change_pct [⟨"A", 1, 0, 0, 0, 100, 0, none⟩, ⟨"A", 2, 0, 0, 0, 110, 0, none⟩,
      ⟨"B", 2, 0, 0, 0, 50, 0, none⟩] "A" = some 10 ∧
    change_pct [⟨"A", 1, 0, 0, 0, 100, 0, none⟩] "A" = some 0 := by
  have hAB : ("A" : String) ≠ "B" := by decide
  have hBA : ("B" : String) ≠ "A" := by decide
  refine ⟨?_, ?_, ?_⟩ <;>
    norm_num [change_pct, maxDate, latestRec, previous_close, snapshotSymbols,
      anyPriorInSnapshot, pickLater, round2, roundHalfEven, hAB, hBA,
      List.filter_cons, List.any_cons]

/-- Dict lookup on an empty accumulator is the zero entry. -/
theorem lookupAgg_nil (s : String) : lookupAgg [] s = zeroAgg := rfl

/-- Dict lookup steps through a cons cell by key comparison. -/
theorem lookupAgg_cons (e : String × StockAgg) (t : List (String × StockAgg)) (s : String) :
    lookupAgg (e :: t) s = if e.1 = s then e.2 else lookupAgg t s := by
  rw [lookupAgg, assocFind]
  by_cases h : e.1 = s
  · simp [h]
  · simp [h, lookupAgg]

/-- A `dictUpd` step adds the holding into exactly its symbol's entry. -/
theorem lookupAgg_dictUpd (acc : List (String × StockAgg)) (h : Holding) (s : String) :
    lookupAgg (dictUpd acc h) s =
      if h.symbol = s then addHolding (lookupAgg acc s) h else lookupAgg acc s := by
  induction acc with
  | nil =>
    simp [dictUpd, lookupAgg_cons, lookupAgg_nil]
  | cons e t ih =>
    by_cases he : e.1 = h.symbol
    · rw [dictUpd, if_pos he, lookupAgg_cons, lookupAgg_cons]
      by_cases hs2 : e.1 = s
      · rw [if_pos hs2, if_pos hs2, if_pos (he.symm.trans hs2)]
      · rw [if_neg hs2, if_neg hs2, if_neg (fun hh => hs2 (he.trans hh))]
    · rw [dictUpd, if_neg he, lookupAgg_cons, lookupAgg_cons]
      by_cases hs2 : e.1 = s
      · rw [if_pos hs2, if_pos hs2, if_neg (fun hh => he (hs2.trans hh.symm))]
      · rw [if_neg hs2, if_neg hs2, ih]

/-- Folding the first `/my-stocks` loop: each symbol's entry accumulates
exactly the holdings of that symbol, in order. -/
theorem lookupAgg_foldl (ps : List Holding) : ∀ (acc : List (String × StockAgg)) (s : String),
    lookupAgg (ps.foldl dictUpd acc) s =
      (ps.filter (fun h => decide (h.symbol = s))).foldl addHolding (lookupAgg acc s) := by
  induction ps with
  | nil =>
    intro acc s
    rfl
  | cons h t ih =>
    intro acc s
    simp only [List.foldl_cons, List.filter_cons]
    by_cases hh : h.symbol = s
    · rw [ih (dictUpd acc h) s, lookupAgg_dictUpd, if_pos hh]
      simp [hh]
    · rw [ih (dictUpd acc h) s, lookupAgg_dictUpd, if_neg hh]
      simp [hh]

/-- Accumulating a list of holdings sums each numeric component and
never touches the two derived fields. -/
theorem foldl_addHolding_spec (l : List Holding) : ∀ (r : StockAgg),
    (l.foldl addHolding r).total_shares = r.total_shares + (l.map Holding.shares).sum ∧
    (l.foldl addHolding r).total_cost = r.total_cost + (l.map Holding.total_cost).sum ∧
    (l.foldl addHolding r).market_value = r.market_value + (l.map Holding.market_value).sum ∧
    (l.foldl addHolding r).profit = r.profit + (l.map Holding.profit).sum ∧
    (l.foldl addHolding r).average_price = r.average_price ∧
    (l.foldl addHolding r).latest_price = r.latest_price := by
  induction l with
  | nil =>
    intro r
    simp
  | cons h t ih =>
    intro r
    obtain ⟨h1, h2, h3, h4, h5, h6⟩ := ih (addHolding r h)
    simp only [List.foldl_cons, List.map_cons, List.sum_cons]
    refine ⟨?_, ?_, ?_, ?_, ?_, ?_⟩
    · rw [h1]
      simp only [addHolding]
      ring
    · rw [h2]
      simp only [addHolding]
      ring
    · rw [h3]
      simp only [addHolding]
      ring
    · rw [h4]
      simp only [addHolding]
      ring
    · rw [h5]
      rfl
    · rw [h6]
      rfl

/-- A dict entry found under key `s` has key `s`. -/
theorem assocFind_key : ∀ (acc : List (String × StockAgg)) (s : String)
    (e : String × StockAgg), assocFind acc s = some e → e.1 = s := by
  intro acc
  induction acc with
  | nil =>
    intro s e h
    cases h
  | cons x t ih =>
    intro s e h
    rw [assocFind] at h
    by_cases hx : x.1 = s
    · rw [if_pos hx] at h
      injection h with h2
      rw [← h2]
      exact hx
    · rw [if_neg hx] at h
      exact ih s e h

/-- A `dictUpd` step leaves a key absent exactly when it was absent and
is not the inserted holding's symbol. -/
theorem assocFind_dictUpd_none (h : Holding) (s : String) :
    ∀ (acc : List (String × StockAgg)),
    (assocFind (dictUpd acc h) s = none ↔
      assocFind acc s = none ∧ ¬ h.symbol = s) := by
  intro acc
  induction acc with
  | nil =>
    rw [dictUpd, assocFind]
    by_cases hh : h.symbol = s
    · simp [hh, assocFind]
    · simp [hh, assocFind]
  | cons e t ih =>
    by_cases he : e.1 = h.symbol
    · rw [dictUpd, if_pos he, assocFind, assocFind]
      by_cases hs2 : e.1 = s
      · simp [hs2]
      · simp only [if_neg hs2]
        constructor
        · intro hn
          exact ⟨hn, fun hh => hs2 (he.trans hh)⟩
        · intro hn
          exact hn.1
    · rw [dictUpd, if_neg he, assocFind, assocFind]
      by_cases hs2 : e.1 = s
      · simp [hs2]
      · simp only [if_neg hs2]
        exact ih

/-- Folding the aggregation loop leaves a key absent exactly when it was
absent and no folded holding has that symbol. -/
theorem assocFind_foldl_none (s : String) : ∀ (ps : List Holding)
    (acc : List (String × StockAgg)),
    (assocFind (ps.foldl dictUpd acc) s = none ↔
      assocFind acc s = none ∧ ∀ h ∈ ps, ¬ h.symbol = s) := by
  intro ps
  induction ps with
  | nil =>
    intro acc
    simp
  | cons h t ih =>
    intro acc
    simp only [List.foldl_cons]
    rw [ih (dictUpd acc h), assocFind_dictUpd_none]
    constructor
    · rintro ⟨⟨ha, hh⟩, hall⟩
      refine ⟨ha, ?_⟩
      intro x hx
      rcases List.mem_cons.mp hx with hx1 | hx1
      · rw [hx1]
        exact hh
      · exact hall x hx1
    · rintro ⟨ha, hall⟩
      exact ⟨⟨ha, hall h (List.mem_cons_self h t)⟩,
        fun x hx => hall x (List.mem_cons_of_mem h hx)⟩

/-- `finalizeAgg` preserves keys, so dict lookup commutes with the
finalizing map. -/
theorem assocFind_map_finalize (ps : List Holding) (s : String) :
    ∀ (acc : List (String × StockAgg)),
    assocFind (acc.map (finalizeAgg ps)) s = (assocFind acc s).map (finalizeAgg ps) := by
  intro acc
  induction acc with
  | nil =>
    rfl
  | cons e t ih =>
    simp only [List.map_cons, assocFind]
    by_cases hs2 : e.1 = s
    · simp only [show (finalizeAgg ps e).1 = e.1 from rfl, if_pos hs2]
      rfl
    · simp only [show (finalizeAgg ps e).1 = e.1 from rfl, if_neg hs2]
      exact ih

/-- Filtering twice with a weaker predicate first is the same as
filtering once. -/
theorem filter_filter_of_imp (p q : Holding → Bool)
    (hpq : ∀ h, p h = true → q h = true) :
    ∀ (l : List Holding), (l.filter q).filter p = l.filter p := by
  intro l
  induction l with
  | nil =>
    rfl
  | cons h t ih =>
    by_cases hq : q h = true
    · by_cases hp : p h = true
      · simp [List.filter_cons, hq, hp, ih]
      · simp [List.filter_cons, hq, hp, ih]
    · have hp : ¬ p h = true := fun hp => hq (hpq h hp)
      simp [List.filter_cons, hq, hp, ih]

/-- Searching after filtering with a weaker predicate is the same as
searching directly. -/
theorem find_filter_of_imp (p q : Holding → Bool)
    (hpq : ∀ h, p h = true → q h = true) :
    ∀ (l : List Holding), (l.filter q).find? p = l.find? p := by
  intro l
  induction l with
  | nil =>
    rfl
  | cons h t ih =>
    by_cases hq : q h = true
    · by_cases hp : p h = true
      · simp [List.filter_cons, hq, hp, List.find?_cons, ih]
      · simp [List.filter_cons, hq, hp, List.find?_cons, ih]
    · have hp : ¬ p h = true := fun hp => hq (hpq h hp)
      simp [List.filter_cons, hq, hp, List.find?_cons, ih]

/-- C2 (counterexample): the claim as stated fails twice on the code.
The group `latest_price` is picked from the first holding with a truthy
(nonzero) cached price, not the first with a present one: with a first
holding cached at 0 and a second at 7 the view shows 7, not 0.  And the
blended average price falls back to 0 whenever the summed shares are not
positive, not only when they are 0: a single holding with -5 shares
yields average price 0, not cost/shares. -/
theorem C2_counterexample :
    ¬ C2Stated [⟨"S", 5, 10, some 0, "a", none⟩, ⟨"S", 5, 12, some 7, "b", none⟩] "S" ∧
    ¬ C2Stated [⟨"T", -5, 2, none, "a", none⟩] "T" := by
  have hSN : ("S" : String) ≠ "NON-STOCK" := by decide
  have hTN : ("T" : String) ≠ "NON-STOCK" := by decide
  constructor
  · intro hC
    have hrow : my_stocks_row
        [⟨"S", 5, 10, some 0, "a", none⟩, ⟨"S", 5, 12, some 7, "b", none⟩] "S" =
        some ⟨10, 110, 85, -25, 11, 7⟩ := by
      norm_num [my_stocks_row, my_stocks, nonStockFilter, dictUpd, assocFind, zeroAgg,
        addHolding, finalizeAgg, truthy, Holding.total_cost, Holding.market_value,
        Holding.profit, List.filter_cons, List.find?_cons, hSN]
    have h := (hC _ hrow).2.2.2.2
    norm_num [truthy, List.find?_cons] at h
  · intro hC
    have hrow : my_stocks_row [⟨"T", -5, 2, none, "a", none⟩] "T" =
        some ⟨-5, -10, -10, 0, 0, 0⟩ := by
      norm_num [my_stocks_row, my_stocks, nonStockFilter, dictUpd, assocFind, zeroAgg,
        addHolding, finalizeAgg, truthy, Holding.total_cost, Holding.market_value,
        Holding.profit, List.filter_cons, List.find?_cons, hTN]
    have h := (hC _ hrow).2.2.2.1
    norm_num [gShares, gCost, Holding.total_cost, List.filter_cons] at h

/-- C2 (amended): for every symbol other than NON-STOCK that occurs in
the holdings, the `/my-stocks` row exists and carries the sums of
shares, cost, market value and profit over the holdings of that symbol
(NON-STOCK rows excluded), a blended average price of summed cost over
summed shares when the summed shares are positive and 0 otherwise, and
the `latest_price` of the first holding of that symbol whose cached
price is set and nonzero, else 0. -/
theorem C2_my_stocks (hs : List Holding) (s : String)
    (hns : s ≠ "NON-STOCK") (hex : ∃ h ∈ hs, h.symbol = s) :
    ∃ r, my_stocks_row hs s = some r ∧
      r.total_shares = gShares hs s ∧
      r.total_cost = gCost hs s ∧
      r.market_value = gMV hs s ∧
      r.profit = gProfit hs s ∧
      r.average_price = (if 0 < gShares hs s then gCost hs s / gShares hs s else 0) ∧
      r.latest_price =
        (match hs.find? (fun h => decide (h.symbol = s) && truthy h.latest_price) with
        | some h => h.latest_price.getD 0
        | none => 0) := by
  obtain ⟨h0, h0mem, h0sym⟩ := hex
  have h0ps : h0 ∈ nonStockFilter hs := by
    rw [nonStockFilter]
    refine List.mem_filter.mpr ⟨h0mem, ?_⟩
    simp only [decide_eq_true_eq]
    rw [h0sym]
    exact hns
  have hnn : assocFind ((nonStockFilter hs).foldl dictUpd []) s ≠ none := by
    rw [Ne, assocFind_foldl_none]
    rintro ⟨-, hall⟩
    exact hall h0 h0ps h0sym
  cases hfind : assocFind ((nonStockFilter hs).foldl dictUpd []) s with
  | none => exact absurd hfind hnn
  | some e =>
    have hkey : e.1 = s := assocFind_key _ s e hfind
    have he2 : e.2 = lookupAgg ((nonStockFilter hs).foldl dictUpd []) s := by
      rw [lookupAgg, hfind]
    have hfilter : (nonStockFilter hs).filter (fun h => decide (h.symbol = s)) =
        hs.filter (fun h => decide (h.symbol = s)) := by
      apply filter_filter_of_imp
      intro h hp
      simp only [decide_eq_true_eq] at hp ⊢
      rw [hp]
      exact hns
    have hlk : lookupAgg ((nonStockFilter hs).foldl dictUpd []) s =
        (hs.filter (fun h => decide (h.symbol = s))).foldl addHolding zeroAgg := by
      rw [lookupAgg_foldl, lookupAgg_nil, hfilter]
    obtain ⟨c1, c2, c3, c4, -, -⟩ :=
      foldl_addHolding_spec (hs.filter (fun h => decide (h.symbol = s))) zeroAgg
    have hts : e.2.total_shares = gShares hs s := by
      rw [he2, hlk, c1, gShares]
      simp [zeroAgg]
    have htc : e.2.total_cost = gCost hs s := by
      rw [he2, hlk, c2, gCost]
      simp [zeroAgg]
    have hmv : e.2.market_value = gMV hs s := by
      rw [he2, hlk, c3, gMV]
      simp [zeroAgg]
    have hpr : e.2.profit = gProfit hs s := by
      rw [he2, hlk, c4, gProfit]
      simp [zeroAgg]
    have hfind2 : (nonStockFilter hs).find?
        (fun h => decide (h.symbol = s) && truthy h.latest_price) =
        hs.find? (fun h => decide (h.symbol = s) && truthy h.latest_price) := by
      apply find_filter_of_imp
      intro h hp
      simp only [Bool.and_eq_true, decide_eq_true_eq] at hp
      simp only [decide_eq_true_eq]
      rw [hp.1]
      exact hns
    refine ⟨(finalizeAgg (nonStockFilter hs) e).2, ?_, hts, htc, hmv, hpr, ?_, ?_⟩
    · unfold my_stocks_row my_stocks
      rw [assocFind_map_finalize, hfind]
      rfl
    · show (if 0 < e.2.total_shares then e.2.total_cost / e.2.total_shares else 0) = _
      rw [hts, htc]
    · show (match (nonStockFilter hs).find?
          (fun h => decide (h.symbol = e.1) && truthy h.latest_price) with
        | some h => h.latest_price.getD 0
        | none => 0) = _
      rw [hkey, hfind2]

/-- C2 (witness): `C2_my_stocks` on the spec's example — two holdings of
one symbol with shares 5 / cost 50 and shares 5 / cost 60 aggregate to
total shares 10, total cost 110, blended average price 11. -/
theorem C2_witness :
    my_stocks_row [⟨"X", 5, 10, none, "a", none⟩, ⟨"X", 5, 12, none, "b", none⟩] "X" =
      some ⟨10, 110, 110, 0, 11, 0⟩ := by
  have hXN : ("X" : String) ≠ "NON-STOCK" := by decide
  obtain ⟨r, hr, h1, h2, h3, h4, h5, h6⟩ := C2_my_stocks
    [⟨"X", 5, 10, none, "a", none⟩, ⟨"X", 5, 12, none, "b", none⟩] "X"
    hXN ⟨⟨"X", 5, 10, none, "a", none⟩, by simp, rfl⟩
  rw [hr]
  norm_num [gShares, gCost, gMV, gProfit, Holding.total_cost, Holding.market_value,
    Holding.profit, truthy, List.filter_cons, List.find?_cons, hXN] at h1 h2 h3 h4 h5 h6
  cases r
  simp_all

/-- C7 (counterexample): the claim says every non-null `latestClose`
result is persisted, but a latest close of `0` is non-null and is not
persisted — the refresh pass keeps the holding's old cached price. -/
theorem C7_counterexample :
    ¬ C7Stated [⟨"S", 1, 0, 0, 0, 0, 0, none⟩] [⟨"S", 2, 3, some 5, "a", none⟩] := by
  simp [C7Stated, update_prices, latest_close, latestRec, pickLater]

/-- C7 (amended): the refresh pass visits every holding in place (the
list keeps its length), changes no field other than `latest_price`,
persists `latestClose(symbol)` onto `latest_price` exactly when the
result is non-null and nonzero, and leaves NON-STOCK holdings (whose
symbol has no price history) entirely untouched. -/
theorem C7_update_prices (rows : List PriceRec) (hs : List Holding) (i : Nat)
    (hi : i < hs.length) (hi2 : i < (update_prices rows hs).length) :
    (update_prices rows hs).length = hs.length ∧
    (update_prices rows hs)[i].symbol = hs[i].symbol ∧
    (update_prices rows hs)[i].shares = hs[i].shares ∧
    (update_prices rows hs)[i].average_price = hs[i].average_price ∧
    (update_prices rows hs)[i].account = hs[i].account ∧
    (update_prices rows hs)[i].investment_id = hs[i].investment_id ∧
    (update_prices rows hs)[i].latest_price =
      (match latest_close rows hs[i].symbol with
        | none => hs[i].latest_price
        | some lp => if lp = 0 then hs[i].latest_price else some lp) ∧
    (hs[i].symbol = "NON-STOCK" → (∀ r ∈ rows, r.symbol ≠ "NON-STOCK") →
      (update_prices rows hs)[i] = hs[i]) := by
  refine ⟨by simp [update_prices], ?_⟩
  simp only [update_prices, List.getElem_map]
  cases hc : latest_close rows hs[i].symbol with
  | none => simp
  | some lp =>
    by_cases hz : lp = 0
    · simp [hz]
    · refine ⟨by simp [hz], by simp [hz], by simp [hz], by simp [hz], by simp [hz],
        by simp [hz], ?_⟩
      intro h1 h2
      rw [h1] at hc
      rw [latest_close_eq_none rows "NON-STOCK" h2] at hc
      cases hc

/-- C7 (witness): `C7_update_prices` at a concrete store and a concrete
singleton portfolio; the nonzero latest close (11) is persisted onto the
holding's cached price. -/
theorem C7_update_prices_witness :
    ((update_prices [⟨"A", 1, 0, 0, 0, 11, 0, none⟩]
        [⟨"A", 2, 3, none, "a", none⟩]).get ⟨0, by simp [update_prices]⟩).latest_price =
      some 11 := by
  have h := (C7_update_prices [⟨"A", 1, 0, 0, 0, 11, 0, none⟩]
    [⟨"A", 2, 3, none, "a", none⟩] 0 (by simp) (by simp [update_prices])).2.2.2.2.2.2.1
  norm_num [latest_close, latestRec, pickLater] at h
  simpa using h

/-- C10: a latest close equal to 0 is not persisted by the refresh
pass: the holding is left completely unchanged even though a price
record for its symbol exists. -/
theorem C10_zero_close_not_persisted (rows : List PriceRec) (hs : List Holding) (i : Nat)
    (hi : i < hs.length) (hi2 : i < (update_prices rows hs).length)
    (hz : latest_close rows hs[i].symbol = some 0) :
    (update_prices rows hs)[i] = hs[i] := by
  simp only [update_prices, List.getElem_map]
  rw [hz]
  simp

/-- C10 (witness): `C10_zero_close_not_persisted` where the store holds
one record for the symbol with close 0: the holding keeps its old
cached price. -/
theorem C10_witness :
    (update_prices [⟨"S", 1, 0, 0, 0, 0, 0, none⟩]
        [⟨"S", 2, 3, some 5, "a", none⟩]).get ⟨0, by simp [update_prices]⟩ =
      ⟨"S", 2, 3, some 5, "a", none⟩ := by
  have h := C10_zero_close_not_persisted [⟨"S", 1, 0, 0, 0, 0, 0, none⟩]
    [⟨"S", 2, 3, some 5, "a", none⟩] 0 (by simp) (by simp [update_prices])
    (by simp [latest_close, latestRec, pickLater])
  simpa using h

/-- C1 (counterexample): the claim's fallback rule "latest price if
present, else average price" fails on a holding whose cached latest
price is present but `0` — `Portfolio.market_value` falls back to the
cost basis there, while the claimed formula yields `0`. -/
theorem C1_counterexample : ¬ C1Stated ⟨"A", 1, 5, some 0, "acc", none⟩ := by
  simp [C1Stated, statedMarketValue, Holding.market_value, Holding.total_cost,
    Holding.profit]

/-- C1 (amended): `totalCost(h) = shares * average_price` and
`profit(h) = marketValue(h) - totalCost(h)` hold for every holding;
`marketValue(h) = shares * latest_price` whenever `latest_price` is
present and nonzero, and `marketValue(h) = shares * average_price`
when `latest_price` is absent or zero.  The spec's concrete instances
hold: shares=10, average_price=100, latest_price=120 gives
totalCost=1000, marketValue=1200, profit=200, and with `latest_price`
unset the market value equals the total cost. -/
theorem C1_valuation (h : Holding) :
    h.total_cost = h.shares * h.average_price ∧
    h.profit = h.market_value - h.total_cost ∧
    (∀ p : ℚ, h.latest_price = some p → p ≠ 0 → h.market_value = h.shares * p) ∧
    ((h.latest_price = none ∨ h.latest_price = some 0) →
      h.market_value = h.shares * h.average_price) ∧
    (Holding.mk "A" 10 100 (some 120) "x" none).total_cost = 1000 ∧
    (Holding.mk "A" 10 100 (some 120) "x" none).market_value = 1200 ∧
    (Holding.mk "A" 10 100 (some 120) "x" none).profit = 200 ∧
    (Holding.mk "A" 10 100 none "x" none).market_value =
      (Holding.mk "A" 10 100 none "x" none).total_cost := by
  refine ⟨rfl, rfl, ?_, ?_, ?_, ?_, ?_, ?_⟩
  · intro p hp hne
    simp [Holding.market_value, hp, hne]
  · rintro (hn | hn) <;> simp [Holding.market_value, hn]
  · norm_num [Holding.total_cost]
  · norm_num [Holding.market_value]
  · norm_num [Holding.profit, Holding.market_value, Holding.total_cost]
  · norm_num [Holding.market_value, Holding.total_cost]

/-- C1 (witness): the nonzero-cached-price branch of `C1_valuation`
evaluated at a concrete holding. -/
theorem C1_valuation_witness :
    (Holding.mk "B" 2 7 (some 3) "x" none).market_value = 6 := by
  have h := (C1_valuation ⟨"B", 2, 7, some 3, "x", none⟩).2.2.1 3 rfl (by norm_num)
  norm_num at h
  exact h

/-- C9: a holding whose `latest_price` is set but equal to 0 is valued
at its cost basis — the Python truthiness test in
`Portfolio.market_value` treats a cached `0.0` like a missing price. -/
theorem C9_zero_cached_price_fallback (h : Holding)
    (hz : h.latest_price = some 0) :
    h.market_value = h.shares * h.average_price := by
  simp [Holding.market_value, hz]

/-- C9 (witness): `C9_zero_cached_price_fallback` at a concrete holding
with a cached zero price. -/
theorem C9_witness : (Holding.mk "A" 4 3 (some 0) "x" none).market_value = 12 := by
  have h := C9_zero_cached_price_fallback ⟨"A", 4, 3, some 0, "x", none⟩ rfl
  norm_num at h
  exact h

/-- C5 (counterexample): the claim promises one accompanying Transaction
for any nonzero initial amount, but `add_investment` only creates it
when `initial_amount > 0`: a negative initial amount (-5) yields zero
Transactions. -/
theorem C5_counterexample : ¬ C5Stated ⟨[], [], 0, 0⟩ "n" "p" "a" "t" (-5) 0 := by
  intro hC
  have h := (hC.1 (by norm_num)).1
  norm_num [add_investment, txns_of] at h

/-- C5 (amended): creating an Investment with a positive initial amount
creates exactly one accompanying Transaction with that amount and notes
"Initial investment", and sets the Investment's `total_amount` (and
`actual_amount`) to the initial amount; a non-positive initial amount
(including 0) creates zero Transactions. -/
theorem C5_add_investment (L : Ledger) (n p a ty : String) (amt : ℚ) (d : Nat)
    (hfresh : ∀ t ∈ L.transactions, t.investment_id ≠ L.nextInvestmentId) :
    (0 < amt →
      txns_of (add_investment L n p a ty amt d) L.nextInvestmentId =
        [⟨L.nextTransactionId, d, amt, L.nextInvestmentId, "Initial investment"⟩]) ∧
    (¬ 0 < amt →
      txns_of (add_investment L n p a ty amt d) L.nextInvestmentId = []) ∧
    (∃ inv ∈ (add_investment L n p a ty amt d).investments,
      inv.id = L.nextInvestmentId ∧ inv.total_amount = amt ∧ inv.actual_amount = amt) := by
  have hnil : L.transactions.filter
      (fun t => decide (t.investment_id = L.nextInvestmentId)) = [] := by
    rw [List.filter_eq_nil_iff]
    intro t ht
    simpa using hfresh t ht
  refine ⟨?_, ?_, ?_⟩
  · intro hpos
    simp [add_investment, txns_of, hpos, List.filter_append, hnil]
  · intro hneg
    simp [add_investment, txns_of, hneg, hnil]
  · refine ⟨⟨L.nextInvestmentId, n, p, a, ty, amt, amt, 0⟩, ?_, rfl, rfl, rfl⟩
    by_cases hpos : 0 < amt <;> simp [add_investment, hpos]

/-- C5 (witness): `C5_add_investment` at a concrete ledger with a
positive initial amount. -/
theorem C5_witness :
    txns_of (add_investment ⟨[], [], 7, 3⟩ "n" "p" "a" "t" 5 0) 7 =
      [⟨3, 0, 5, 7, "Initial investment"⟩] :=
  (C5_add_investment ⟨[], [], 7, 3⟩ "n" "p" "a" "t" 5 0 (by simp)).1 (by norm_num)

/-- C6: deleting an Investment removes every Transaction carrying its
id (none remain queryable), removes the Investment, and preserves the
invariant that every Transaction references a live Investment. -/
theorem C6_delete_investment (L : Ledger) (iid : Nat)
    (hinv : ∀ t ∈ L.transactions, ∃ inv ∈ L.investments, inv.id = t.investment_id) :
    (∀ t ∈ (delete_investment L iid).transactions, t.investment_id ≠ iid) ∧
    txns_of (delete_investment L iid) iid = [] ∧
    (∀ inv2 ∈ (delete_investment L iid).investments, inv2.id ≠ iid) ∧
    (∀ t ∈ (delete_investment L iid).transactions,
      ∃ inv ∈ (delete_investment L iid).investments, inv.id = t.investment_id) := by
  refine ⟨?_, ?_, ?_, ?_⟩
  · intro t ht
    simp [delete_investment, List.mem_filter] at ht
    exact ht.2
  · rw [txns_of, List.filter_eq_nil_iff]
    intro t ht
    simp [delete_investment, List.mem_filter] at ht
    simpa using ht.2
  · intro inv2 h2
    simp [delete_investment, List.mem_filter] at h2
    exact h2.2
  · intro t ht
    simp only [delete_investment, List.mem_filter] at ht
    obtain ⟨htmem, hne⟩ := ht
    obtain ⟨inv, hmem, hid⟩ := hinv t htmem
    refine ⟨inv, ?_, hid⟩
    simp only [delete_investment, List.mem_filter]
    refine ⟨hmem, ?_⟩
    rw [hid]
    exact hne

/-- C6 (witness): `C6_delete_investment` at a concrete one-investment,
one-transaction ledger. -/
theorem C6_witness :
    txns_of (delete_investment ⟨[⟨1, "n", "p", "a", "t", 0, 0, 0⟩],
      [⟨1, 0, 5, 1, "x"⟩], 2, 2⟩ 1) 1 = [] := by
  refine (C6_delete_investment _ 1 ?_).2.1
  intro t ht
  simp at ht
  subst ht
  exact ⟨⟨1, "n", "p", "a", "t", 0, 0, 0⟩, by simp, rfl⟩

/-- C4: the upload's replace-by-date policy deletes every stored row
dated like an uploaded record, then inserts the uploaded records; so
uploading the same record set twice is idempotent, uniqueness of
`(symbol, date)` keys is preserved, and every uploaded record is in the
store afterwards. -/
theorem C4_upsertDay (store records : List PriceRec)
    (hstore : keysUnique store) (hrecords : keysUnique records) :
    upsertDay (upsertDay store records) records = upsertDay store records ∧
    keysUnique (upsertDay store records) ∧
    ∀ r ∈ records, r ∈ upsertDay store records := by
  refine ⟨?_, ?_, ?_⟩
  · show (upsertDay store records).filter _ ++ records = _
    rw [upsertDay, List.filter_append]
    have h1 : (store.filter (fun r => decide (r.date ∉ records.map PriceRec.date))).filter
        (fun r => decide (r.date ∉ records.map PriceRec.date)) =
        store.filter (fun r => decide (r.date ∉ records.map PriceRec.date)) := by
      rw [List.filter_eq_self]
      intro a ha
      exact (List.mem_filter.mp ha).2
    have h2 : records.filter (fun r => decide (r.date ∉ records.map PriceRec.date)) = [] := by
      rw [List.filter_eq_nil_iff]
      intro r hr
      simpa using List.mem_map_of_mem PriceRec.date hr
    rw [h1, h2, List.append_nil]
  · rw [keysUnique, upsertDay, List.pairwise_append]
    refine ⟨hstore.sublist (List.filter_sublist _), hrecords, ?_⟩
    intro a ha b hb hclash
    have hdates : a.date ∉ records.map PriceRec.date := by
      have := List.of_mem_filter ha
      simpa using this
    exact hdates (hclash.2 ▸ List.mem_map_of_mem PriceRec.date hb)
  · intro r hr
    exact List.mem_append_right _ hr

/-- C4 (witness): `C4_upsertDay` at a concrete one-row store and a
concrete one-row upload. -/
theorem C4_witness :
    upsertDay (upsertDay [⟨"A", 1, 0, 0, 0, 10, 0, none⟩] [⟨"A", 2, 0, 0, 0, 11, 0, none⟩])
        [⟨"A", 2, 0, 0, 0, 11, 0, none⟩] =
      upsertDay [⟨"A", 1, 0, 0, 0, 10, 0, none⟩] [⟨"A", 2, 0, 0, 0, 11, 0, none⟩] :=
  (C4_upsertDay [⟨"A", 1, 0, 0, 0, 10, 0, none⟩] [⟨"A", 2, 0, 0, 0, 11, 0, none⟩]
    (List.pairwise_singleton _ _) (List.pairwise_singleton _ _)).1

/-- When no NON-STOCK row exists for the account, `update_market_value`
appends a fresh one with `shares = 1` and both prices set to the entered
value. -/
theorem update_market_value_fresh (account : String) (mv : ℚ) :
    ∀ (hs : List Holding),
    (∀ h0 ∈ hs, ¬ (h0.account = account ∧ h0.symbol = "NON-STOCK")) →
    update_market_value hs account mv =
      hs ++ [⟨"NON-STOCK", 1, mv, some mv, account, none⟩] := by
  intro hs
  induction hs with
  | nil =>
    intro _
    rfl
  | cons h t ih =>
    intro hfresh
    have hh : ¬ (h.account = account ∧ h.symbol = "NON-STOCK") :=
      hfresh h (List.mem_cons_self h t)
    rw [update_market_value, if_neg hh,
      ih (fun h0 h0m => hfresh h0 (List.mem_cons_of_mem h h0m))]
    rfl

/-- Every row of an `update_market_value` result is either an untouched
original row or a NON-STOCK row of the target account carrying the
entered value as both prices, with one share when freshly created and an
existing NON-STOCK row's share count otherwise. -/
theorem update_market_value_mem (account : String) (mv : ℚ) :
    ∀ (hs : List Holding) (h : Holding), h ∈ update_market_value hs account mv →
    h ∈ hs ∨ (h.symbol = "NON-STOCK" ∧ h.account = account ∧ h.average_price = mv ∧
      h.latest_price = some mv ∧
      (h.shares = 1 ∨ ∃ h0 ∈ hs, h0.account = account ∧ h0.symbol = "NON-STOCK" ∧
        h.shares = h0.shares)) := by
  intro hs
  induction hs with
  | nil =>
    intro h hmem
    simp only [update_market_value, List.mem_singleton] at hmem
    subst hmem
    exact Or.inr ⟨rfl, rfl, rfl, rfl, Or.inl rfl⟩
  | cons x t ih =>
    intro h hmem
    by_cases hx : x.account = account ∧ x.symbol = "NON-STOCK"
    · rw [update_market_value, if_pos hx] at hmem
      rcases List.mem_cons.mp hmem with h1 | h1
      · subst h1
        exact Or.inr ⟨hx.2, hx.1, rfl, rfl,
          Or.inr ⟨x, List.mem_cons_self x t, hx.1, hx.2, rfl⟩⟩
      · exact Or.inl (List.mem_cons_of_mem x h1)
    · rw [update_market_value, if_neg hx] at hmem
      rcases List.mem_cons.mp hmem with h1 | h1
      · exact Or.inl (h1 ▸ List.mem_cons_self x t)
      · rcases ih h h1 with h2 | ⟨a, b, c, d, e⟩
        · exact Or.inl (List.mem_cons_of_mem x h2)
        · refine Or.inr ⟨a, b, c, d, ?_⟩
          rcases e with e | ⟨h0, h0m, e1, e2, e3⟩
          · exact Or.inl e
          · exact Or.inr ⟨h0, List.mem_cons_of_mem x h0m, e1, e2, e3⟩

/-- C8 (counterexample): the claimed invariant "shares > 0 for real
holdings" is not enforced by the code: `add_portfolio` accepts a share
count of 0 (or any non-positive value) verbatim, producing a reachable
non-NON-STOCK holding with shares = 0. -/
theorem C8_counterexample : ¬ C8Stated (add_portfolio "AAA" 0 5 "acct" none) := by
  intro hC
  have h := hC.1 (by decide)
  norm_num [add_portfolio] at h

/-- C8 (amended): `add_portfolio` stores the submitted share count
verbatim with no cached price, so the created holding has positive
shares exactly when the submission is positive (the code does not
enforce it); `update_market_value` establishes the NON-STOCK part of
the invariant: with no existing NON-STOCK row for the account it
appends one with shares = 1 and `average_price = latest_price =` the
entered value, and in general every row it produces is either an
untouched original or a NON-STOCK row of the account carrying the
entered value as both prices, with one share when freshly created. -/
theorem C8_holding_invariant (symbol acct account : String) (shares ap mv : ℚ)
    (iid : Option Nat) (hs : List Holding)
    (hfresh : ∀ h0 ∈ hs, ¬ (h0.account = account ∧ h0.symbol = "NON-STOCK")) :
    (add_portfolio symbol shares ap acct iid).shares = shares ∧
    (add_portfolio symbol shares ap acct iid).latest_price = none ∧
    (0 < shares → 0 < (add_portfolio symbol shares ap acct iid).shares) ∧
    update_market_value hs account mv =
      hs ++ [⟨"NON-STOCK", 1, mv, some mv, account, none⟩] ∧
    (∀ hs2 : List Holding, ∀ h ∈ update_market_value hs2 account mv,
      h ∈ hs2 ∨ (h.symbol = "NON-STOCK" ∧ h.account = account ∧ h.average_price = mv ∧
        h.latest_price = some mv ∧
        (h.shares = 1 ∨ ∃ h0 ∈ hs2, h0.account = account ∧ h0.symbol = "NON-STOCK" ∧
          h.shares = h0.shares))) :=
  ⟨rfl, rfl, fun hp => hp, update_market_value_fresh account mv hs hfresh,
    fun hs2 h hmem => update_market_value_mem account mv hs2 h hmem⟩

/-- C8 (witness): `C8_holding_invariant` on an empty portfolio — saving
a manual market value of 9 for an account creates the NON-STOCK row
⟨shares 1, both prices 9⟩. -/
theorem C8_witness :
    update_market_value [] "acct" 9 = [⟨"NON-STOCK", 1, 9, some 9, "acct", none⟩] :=
  (C8_holding_invariant "A" "x" "acct" 1 1 9 none [] (by simp)).2.2.2.1

end InvestMon
